/-
Verification of the SERP brand-share dashboard (`brand_viz_app.py`).

The development shallowly embeds the data pipeline of the application:
the loader (`load_data`), the three record filters (position range,
state membership, keyword pattern), and the aggregations behind the
Overview, Brand Breakdown and Keyword Detail views.  Rows of the pandas
dataframe are embedded as a `Record` structure; missing values (pandas
`NaN`) are embedded as `Option` fields.  Percentage arithmetic is
carried out in `ℚ`; the `.round(1)` of pandas/numpy is embedded as
round-half-to-even on tenths (`round1`), which agrees with numpy's
behaviour on the exactly representable values that appear in the
concrete evaluations below.
-/
import Mathlib

namespace BrandViz

/-- One raw CSV row, before `load_data` applies its defaults.  Fields that
pandas may read as `NaN` are `Option`s.  The two brand columns are kept as
plain strings: a missing brand cell and an empty brand cell both contribute
zero brand entries downstream, so the empty string stands for both. -/
structure RawRecord where
  state : Option String
  keyword : Option String
  position : Option Int
  classification : Option String
  url : String
  real_brands : String
  sweeps_brands : String
deriving DecidableEq, Repr

/-- One loaded row, after `load_data`: `state` and `classification` have had
their defaults filled in and `position_weight` has been derived. -/
structure Record where
  state : String
  keyword : Option String
  position : Option Int
  position_weight : Int
  classification : String
  url : String
  real_brands : String
  sweeps_brands : String
deriving DecidableEq, Repr

/-- Line 17: `df["position"].apply(lambda p: max(0, 11 - p) if pd.notna(p) else 0)`. -/
def posWeight : Option Int → Int
  | some p => max 0 (11 - p)
  | none => 0

/-- Lines 13–18 of `load_data`, for a single row: `classification` filled
with `"Other"`, `state` filled with `"Unknown"`, `position_weight` derived
by `posWeight`. -/
def loadOne (r : RawRecord) : Record :=
  { state := r.state.getD "Unknown"
    keyword := r.keyword
    position := r.position
    position_weight := posWeight r.position
    classification := r.classification.getD "Other"
    url := r.url
    real_brands := r.real_brands
    sweeps_brands := r.sweeps_brands }

/-- `load_data` applied to a whole CSV (list of raw rows). -/
def loadData (l : List RawRecord) : List Record := l.map loadOne

/-- Line 21 predicate: `df["position"].between(lo, hi)`; pandas `between`
is inclusive on both ends and is `False` on `NaN`. -/
def posPass (lo hi : Int) (r : Record) : Bool :=
  match r.position with
  | some p => decide (lo ≤ p ∧ p ≤ hi)
  | none => false

/-- Line 21: `df = df[df["position"].between(pos_filter[0], pos_filter[1])]`. -/
def posFilter (lo hi : Int) (l : List Record) : List Record :=
  l.filter (posPass lo hi)

/-- Line 31 predicate: `df["state"].isin(state_sel)`. -/
def statePass (sel : List String) (r : Record) : Bool :=
  sel.contains r.state

/-- Line 31: `df_filt = df[df["state"].isin(state_sel)]`. -/
def stateFilter (sel : List String) (l : List Record) : List Record :=
  l.filter (statePass sel)

/-- A token of the patterns accepted by `pandas.Series.str.contains`
(which treats its argument as a regular expression). -/
inductive PatTok where
  | lit (c : Char)
  | dot
deriving DecidableEq, Repr

/-- Modelled from the Python `re` module: does one pattern token match one
character?  (`.` is modelled as matching every character.) -/
def tokMatch : PatTok → Char → Bool
  | .lit c, d => c == d
  | .dot, _ => true

/-- Does the pattern match a leading segment of the character list? -/
def reMatch : List PatTok → List Char → Bool
  | [], _ => true
  | _ :: _, [] => false
  | t :: ps, c :: cs => tokMatch t c && reMatch ps cs

/-- Modelled from the Python `re` module, restricted to patterns built from
literal characters and the `.` wildcard (no other metacharacters are
modelled): `re.search`, i.e. the pattern matches at some start position. -/
def reSearch (p : List PatTok) : List Char → Bool
  | [] => reMatch p []
  | c :: cs => reMatch p (c :: cs) || reSearch p cs

/-- Parse a pattern string the way `str.contains(pat, regex=True)` reads it,
for patterns built from literal characters and `.` only. -/
def parsePat (s : String) : List PatTok :=
  s.toList.map (fun c => if c = '.' then PatTok.dot else PatTok.lit c)

/-- Does `n` match a leading segment of `h` literally? -/
def leadEq : List Char → List Char → Bool
  | [], _ => true
  | _ :: _, [] => false
  | a :: as, b :: bs => a == b && leadEq as bs

/-- Plain substring containment on character lists (the spec's reading of
the keyword filter): `n` occurs contiguously inside `h`. -/
def listSub (n : List Char) : List Char → Bool
  | [] => leadEq n []
  | c :: cs => leadEq n (c :: cs) || listSub n cs

/-- The regular-expression metacharacters of Python's `re` module. -/
def isMeta (c : Char) : Bool :=
  c = '.' || c = '^' || c = '$' || c = '*' || c = '+' || c = '?' ||
  c = '\x7b' || c = '\x7d' || c = '[' || c = ']' || c = '\\' ||
  c = '|' || c = '(' || c = ')'

/-- Python's `str.lower()`, character by character.  (`Char.toLower`
lowercases the ASCII range, which covers the data of this application.) -/
def pyLower (s : String) : String := ⟨s.toList.map Char.toLower⟩

/-- Drop leading whitespace from a character list. -/
def dropWS : List Char → List Char
  | [] => []
  | c :: cs => if c.isWhitespace then dropWS cs else c :: cs

/-- Python's `str.strip()`: remove whitespace from both ends. -/
def pyStrip (s : String) : String :=
  ⟨((dropWS ((dropWS s.toList).reverse)).reverse)⟩

/-- Line 33 predicate, for a normalized non-empty selection `t`:
`df_filt["keyword"].str.lower().str.contains(t, na=False)` — a missing
keyword yields `False` (`na=False`), otherwise the lowercased keyword is
searched for the pattern. -/
def kwPass (t : String) (r : Record) : Bool :=
  match r.keyword with
  | none => false
  | some k => reSearch (parsePat t) (pyLower k).toList

/-- Lines 27 and 32–33: the selection is stripped and lowercased
(`.strip().lower()`); if the result is empty no keyword filtering happens,
otherwise rows whose keyword matches are kept. -/
def kwFilter (sel : String) (l : List Record) : List Record :=
  let t := pyLower (pyStrip sel)
  if t = "" then l else l.filter (kwPass t)

/-- Round-half-to-even to an integer, on `ℚ`. -/
def rhe (x : ℚ) : Int :=
  if x - ⌊x⌋ < 1/2 then ⌊x⌋
  else if 1/2 < x - ⌊x⌋ then ⌊x⌋ + 1
  else if ⌊x⌋ % 2 = 0 then ⌊x⌋ else ⌊x⌋ + 1

/-- `.round(1)` of pandas/numpy: round to one decimal place,
half-to-even. -/
def round1 (x : ℚ) : ℚ := (rhe (10 * x) : ℚ) / 10

/-- Line 28: the metric radio button, `"Raw Count"` vs
`"Position-Weighted Share"`. -/
inductive Metric where
  | raw
  | weighted
deriving DecidableEq, Repr

/-- The per-record contribution under a metric: `.size()` counts one per
row, the weighted branch sums `position_weight`. -/
def recVal (m : Metric) (r : Record) : ℚ :=
  match m with
  | .raw => 1
  | .weighted => (r.position_weight : ℚ)

/-- The distinct `(state, classification)` pairs of the filtered records —
the group keys of `df_filt.groupby(["state", "classification"])`
(lines 42 and 52). -/
def overviewKeys (l : List Record) : List (String × String) :=
  (l.map (fun r => (r.state, r.classification))).dedup

/-- The aggregated value of one `(state, classification)` group: its size
(raw metric, line 52) or the sum of its `position_weight`s (weighted
metric, lines 42–44). -/
def groupVal (m : Metric) (l : List Record) (s c : String) : ℚ :=
  ((l.filter (fun r => r.state = s ∧ r.classification = c)).map (recVal m)).sum

/-- One row of the Overview `summary` dataframe after the merge with
`total` and the share computation (lines 41–48 / 52–55). -/
structure OverviewRow where
  state : String
  classification : String
  value : ℚ
  total : ℚ
  share : ℚ
deriving DecidableEq, Repr

/-- The group keys of state `s` in the Overview aggregation. -/
def stateKeys (l : List Record) (s : String) : List (String × String) :=
  (overviewKeys l).filter (fun p => p.1 = s)

/-- The line-46/53 total of state `s`
(`summary.groupby("state")[...].sum()`): the sum of the group values of
the state's classification groups. -/
def stateKeyTotal (m : Metric) (l : List Record) (s : String) : ℚ :=
  ((stateKeys l s).map (fun p => groupVal m l p.1 p.2)).sum

/-- The metric total of state `s` taken directly over the records. -/
def stateRecTotal (m : Metric) (l : List Record) (s : String) : ℚ :=
  ((l.filter (fun r => r.state = s)).map (recVal m)).sum

/-- Lines 40–57: the Overview aggregation.  One row per distinct
`(state, classification)` pair; `total` is the line-46/53 per-state sum of
the group values, merged back on `state`;
`share = (value / total * 100).round(1)`. -/
def overview (m : Metric) (l : List Record) : List OverviewRow :=
  (overviewKeys l).map (fun k =>
    { state := k.1
      classification := k.2
      value := groupVal m l k.1 k.2
      total := stateKeyTotal m l k.1
      share := round1 (groupVal m l k.1 k.2 / stateKeyTotal m l k.1 * 100) })

/-- The `share` column of the Overview rows of state `s`. -/
def stateShares (m : Metric) (l : List Record) (s : String) : List ℚ :=
  ((overview m l).filter (fun row => row.state = s)).map OverviewRow.share

/-- Lines 164–165: `df_filt.dropna(subset=["keyword", "position_weight"])`
(`position_weight` is never missing after `load_data`). -/
def kwRecords (l : List Record) : List Record :=
  l.filter (fun r => r.keyword.isSome)

/-- The distinct `(keyword, classification)` pairs of the Keyword Detail
groupby (lines 168–172); the rows of `kwRecords` all carry a present
keyword. -/
def kwKeys (l : List Record) : List (String × String) :=
  ((kwRecords l).map (fun r => (r.keyword.getD "", r.classification))).dedup

/-- The summed `position_weight` of one `(keyword, classification)` group
(lines 168–172). -/
def kwGroupW (l : List Record) (k c : String) : ℚ :=
  (((kwRecords l).filter (fun r => r.keyword = some k ∧ r.classification = c)).map
    (fun r => (r.position_weight : ℚ))).sum

/-- One row of the Keyword Detail `kw_summary` dataframe. -/
structure KwRow where
  keyword : String
  classification : String
  weight : ℚ
  total : ℚ
  share : ℚ
deriving DecidableEq, Repr

/-- The line-177 `groupby("keyword")["weight"].transform("sum")` total of
one keyword: the sum of the group weights of the same keyword. -/
def kwKeyTotal (l : List Record) (k : String) : ℚ :=
  (((kwKeys l).filter (fun p => p.1 = k)).map
    (fun p => kwGroupW l p.1 p.2)).sum

/-- Lines 165–179: the Keyword Detail aggregation.  One row per distinct
`(keyword, classification)` pair of the records with a present keyword;
`total` is the line-177 per-keyword sum of the group weights; `share` is
`(weight / total * 100).round(1)`. -/
def kwDetail (l : List Record) : List KwRow :=
  (kwKeys l).map (fun k =>
    { keyword := k.1
      classification := k.2
      weight := kwGroupW l k.1 k.2
      total := kwKeyTotal l k.1
      share := round1 (kwGroupW l k.1 k.2 / kwKeyTotal l k.1 * 100) })

/-- Lines 206–209: `kw_summary.groupby("keyword")["share"].sum()` for one
keyword. -/
def kwSumShare (l : List Record) (k : String) : ℚ :=
  (((kwDetail l).filter (fun row => row.keyword = k)).map KwRow.share).sum

/-- Line 210: `any(check["sum_share"] > 100.1)`. -/
def kwWarn (l : List Record) : Bool :=
  (((kwDetail l).map KwRow.keyword).dedup).any
    (fun k => decide ((1001 : ℚ)/10 < kwSumShare l k))

/-- The Keyword Detail view: the aggregated table (always displayed,
line 213) together with the advisory warning flag (line 210–211). -/
def keywordDetailView (l : List Record) : List KwRow × Bool :=
  (kwDetail l, kwWarn l)

/-- Split a character list at every (non-overlapping, leftmost-first)
occurrence of the separator `", "`, accumulating the current segment in
reverse. -/
def splitCSAux (cur : List Char) : List Char → List (List Char)
  | [] => [cur.reverse]
  | ',' :: ' ' :: rest => cur.reverse :: splitCSAux [] rest
  | c :: rest => splitCSAux (c :: cur) rest

/-- Line 97/124: Python's `str.split(", ")` of one brand cell.  Like
Python's `split`, it never drops empty segments and maps `""` to
`[""]`. -/
def splitBrands (s : String) : List String :=
  (splitCSAux [] s.toList).map (fun cs => (⟨cs⟩ : String))

/-- Lines 96–99 / 123–126: explode the brand column selected by `f` and
drop empty names (`.query("brand != ''")`). -/
def brandNames (f : Record → String) (l : List Record) : List String :=
  ((l.map (fun r => splitBrands (f r))).flatten).filter (fun b => b ≠ "")

/-- Lines 100–102 / 127–129: one `(brand, count)` pair per distinct brand
name, with its number of occurrences. -/
def brandCounts (f : Record → String) (l : List Record) : List (String × Nat) :=
  ((brandNames f l).dedup).map (fun b => (b, (brandNames f l).count b))

/-- Descending order on the `count` component (line 103/130
`sort_values("count", ascending=False)`). -/
def cntGE (a b : String × Nat) : Prop := b.2 ≤ a.2

instance : DecidableRel cntGE := fun a b => inferInstanceAs (Decidable (b.2 ≤ a.2))

instance : IsTotal (String × Nat) cntGE := ⟨fun a b => Nat.le_total b.2 a.2⟩

instance : IsTrans (String × Nat) cntGE := ⟨fun _ _ _ h1 h2 => Nat.le_trans h2 h1⟩

/-- Lines 96–105 / 123–132: count brands, sort descending by count, keep
the top 25 (`.head(25)`). -/
def brandBreakdown (f : Record → String) (l : List Record) : List (String × Nat) :=
  (List.insertionSort cntGE (brandCounts f l)).take 25

/-- A loaded record with the given state, classification, position and
keyword, the remaining fields empty, and `position_weight` derived the way
`load_data` derives it. -/
def mkRec (s c : String) (p : Option Int) (k : Option String) : Record :=
  { state := s
    keyword := k
    position := p
    position_weight := posWeight p
    classification := c
    url := ""
    real_brands := ""
    sweeps_brands := "" }

/-- A raw CSV row with position 0 (present, but outside `[1,10]`). -/
def rawP0 : RawRecord :=
  { state := some "CA"
    keyword := some "casino"
    position := some 0
    classification := some "Real"
    url := ""
    real_brands := ""
    sweeps_brands := "" }

/-- A raw CSV row whose optional fields are all missing. -/
def rawAllNone : RawRecord :=
  { state := none
    keyword := none
    position := none
    classification := none
    url := ""
    real_brands := ""
    sweeps_brands := "" }

/-- A raw CSV row with position 3 and every optional field present. -/
def rawPos3 : RawRecord :=
  { state := some "NJ"
    keyword := some "casino"
    position := some 3
    classification := some "Sweeps"
    url := ""
    real_brands := ""
    sweeps_brands := "" }

/-- A loaded record at position 2 in state CA. -/
def recCA : Record := mkRec "CA" "Real" (some 2) (some "casino")

/-- Sixteen records in one state, split 1/1/5/9 over the four
classifications.  The raw-count shares are 6.25 %, 6.25 %, 31.25 % and
56.25 %; each rounds down to one decimal (half-to-even), so the rounded
shares sum to 99.8. -/
def cexRecs : List Record :=
  mkRec "CA" "Real" (some 1) (some "casino") ::
  mkRec "CA" "Sweeps" (some 1) (some "casino") ::
  (List.replicate 5 (mkRec "CA" "Both" (some 1) (some "casino")) ++
   List.replicate 9 (mkRec "CA" "Other" (some 1) (some "casino")))

/-- The single Overview row produced by `[recCA]` under the raw metric. -/
def cRow : OverviewRow :=
  { state := "CA", classification := "Real", value := 1, total := 1, share := 100 }

/-- A record whose `real_brands` cell reads `"A, B, A"`. -/
def brandRecA : Record :=
  { state := "CA", keyword := some "casino", position := some 1
    position_weight := 10, classification := "Real", url := ""
    real_brands := "A, B, A", sweeps_brands := "" }

/-- A record whose `real_brands` cell reads `"B"`. -/
def brandRecB : Record :=
  { state := "CA", keyword := some "casino", position := some 2
    position_weight := 9, classification := "Real", url := ""
    real_brands := "B", sweeps_brands := "" }

/-- The spec's brand-counting example: one record with `"A, B, A"`, one
with `"B"`. -/
def brandEx : List Record := [brandRecA, brandRecB]

/-- The filtered record set of the C9 witness: one NJ record at
position 3, run through the three filters the way the app chains them. -/
def fl9 : List Record :=
  kwFilter "" (stateFilter ["NJ"] (posFilter 1 4 (loadData [rawPos3])))

/-- The weighted Overview row produced by `fl9`. -/
def njRow : OverviewRow :=
  { state := "NJ", classification := "Sweeps", value := 8, total := 8, share := 100 }

/-- The Keyword Detail row produced by `fl9`. -/
def kwNjRow : KwRow :=
  { keyword := "casino", classification := "Sweeps", weight := 8, total := 8, share := 100 }

/-- A record whose keyword is the single letter `"x"`. -/
def kwCexRec : Record := mkRec "CA" "Real" (some 1) (some "x")

theorem rhe_abs_le (x : ℚ) : |(rhe x : ℚ) - x| ≤ 1/2 := by
  have hfl : (⌊x⌋ : ℚ) ≤ x := Int.floor_le x
  have hfu : x < ⌊x⌋ + 1 := Int.lt_floor_add_one x
  unfold rhe
  split
  · rw [abs_le]; constructor <;> linarith
  · rename_i h1
    have h1' := not_lt.mp h1
    split
    · rw [abs_le]; constructor <;> push_cast <;> linarith
    · rename_i h2
      have h2' := not_lt.mp h2
      split <;> (rw [abs_le]; constructor <;> push_cast <;> linarith)


theorem round1_abs_le (x : ℚ) : |round1 x - x| ≤ 1/20 := by
  have h := rhe_abs_le (10 * x)
  unfold round1
  have : (rhe (10 * x) : ℚ) / 10 - x = ((rhe (10 * x) : ℚ) - 10 * x) / 10 := by
    ring
  rw [this, abs_div]
  have h10 : |(10 : ℚ)| = 10 := by norm_num
  rw [h10]
  linarith

theorem sum_map_add_split {K : Type} (ks : List K) (A B : K → ℚ) :
    (ks.map (fun c => A c + B c)).sum = (ks.map A).sum + (ks.map B).sum := by
  induction ks with
  | nil => simp
  | cons k ks ih => simp [ih]; ring

theorem sum_map_ite_zero {K : Type} [DecidableEq K] (ks : List K) (a : K) (v : ℚ)
    (ha : a ∉ ks) : (ks.map (fun c => if c = a then v else 0)).sum = 0 := by
  induction ks with
  | nil => simp
  | cons k ks ih =>
    have hk : ¬(k = a) := fun h => ha (h ▸ List.mem_cons_self k ks)
    have hm : a ∉ ks := fun h => ha (List.mem_cons_of_mem _ h)
    simp [hk, ih hm]

theorem sum_map_ite_eq {K : Type} [DecidableEq K] (ks : List K) (a : K) (v : ℚ)
    (hnd : ks.Nodup) (ha : a ∈ ks) :
    (ks.map (fun c => if c = a then v else 0)).sum = v := by
  induction ks with
  | nil => cases ha
  | cons k ks ih =>
    by_cases hk : k = a
    · subst hk
      have hnotin : k ∉ ks := (List.nodup_cons.mp hnd).1
      simp [sum_map_ite_zero ks k v hnotin]
    · have hmem : a ∈ ks := by
        rcases List.mem_cons.mp ha with h | h
        · exact absurd h.symm hk
        · exact h
      simp [hk, ih (List.nodup_cons.mp hnd).2 hmem]

/-- A group-by partitions its input: summing the per-group sums over a
duplicate-free covering key list gives the total sum. -/
theorem groupby_partition {α K : Type} [DecidableEq K] (g : α → K) (f : α → ℚ)
    (m : List α) (ks : List K) (hnd : ks.Nodup) (hcov : ∀ x ∈ m, g x ∈ ks) :
    (ks.map (fun c => ((m.filter (fun x => g x = c)).map f).sum)).sum
      = (m.map f).sum := by
  induction m with
  | nil => simp
  | cons x m ih =>
    have hcov' : ∀ y ∈ m, g y ∈ ks := fun y hy => hcov y (List.mem_cons_of_mem _ hy)
    have hstep : ∀ c : K,
        (((x :: m).filter (fun y => g y = c)).map f).sum
          = (if c = g x then f x else 0)
            + ((m.filter (fun y => g y = c)).map f).sum := by
      intro c
      by_cases h : g x = c
      · subst h
        simp [List.filter_cons]
      · have h' : ¬(c = g x) := fun he => h he.symm
        simp [List.filter_cons, h, h']
    calc (ks.map (fun c => (((x :: m).filter (fun y => g y = c)).map f).sum)).sum
        = (ks.map (fun c => (if c = g x then f x else 0)
            + ((m.filter (fun y => g y = c)).map f).sum)).sum := by
          exact congrArg List.sum (List.map_congr_left (fun c _ => hstep c))
      _ = (ks.map (fun c => if c = g x then f x else 0)).sum
            + (ks.map (fun c => ((m.filter (fun y => g y = c)).map f).sum)).sum :=
          sum_map_add_split ks _ _
      _ = f x + (m.map f).sum := by
          rw [sum_map_ite_eq ks (g x) (f x) hnd (hcov x (List.mem_cons_self x m)),
            ih hcov']
      _ = ((x :: m).map f).sum := by simp

theorem sum_map_round1_bound (xs : List ℚ) :
    |(xs.map round1).sum - xs.sum| ≤ xs.length / 20 := by
  induction xs with
  | nil => simp
  | cons x xs ih =>
    have hx := round1_abs_le x
    have h : (((x :: xs).map round1).sum - (x :: xs).sum)
        = (round1 x - x) + ((xs.map round1).sum - xs.sum) := by
      simp; ring
    rw [h]
    calc |(round1 x - x) + ((xs.map round1).sum - xs.sum)|
        ≤ |round1 x - x| + |(xs.map round1).sum - xs.sum| := abs_add _ _
      _ ≤ 1/20 + xs.length / 20 := add_le_add hx ih
      _ = (x :: xs).length / 20 := by
          simp [List.length_cons]
          ring

/-- Normalizing a positive-total list of values to percentages and rounding
each to one decimal gives a sum within `n/20` of 100. -/
theorem shares_sum_close (vs : List ℚ) (hpos : 0 < vs.sum) :
    |(vs.map (fun v => round1 (v / vs.sum * 100))).sum - 100| ≤ vs.length / 20 := by
  have hmap : vs.map (fun v => round1 (v / vs.sum * 100))
      = (vs.map (fun v => v / vs.sum * 100)).map round1 := by
    rw [List.map_map]
    rfl
  have hsum : (vs.map (fun v => v / vs.sum * 100)).sum = 100 := by
    have h1 : (vs.map (fun v => v / vs.sum * 100)).sum
        = (vs.map id).sum * (100 / vs.sum) := by
      rw [← List.sum_map_mul_right]
      exact congrArg List.sum (List.map_congr_left (fun v _ => by
        simp
        ring))
    rw [h1, List.map_id]
    field_simp
  have hlen : (vs.map (fun v => v / vs.sum * 100)).length = vs.length := by
    simp
  have := sum_map_round1_bound (vs.map (fun v => v / vs.sum * 100))
  rw [hsum, hlen] at this
  rw [hmap]
  exact this

/-- Claim C1 (amended): for a loaded record with present position `p`,
`position_weight = 11 - p` whenever `1 ≤ p ≤ 10`; it is `0` whenever
`p > 10` or the position is absent.  (The code computes `max(0, 11 - p)`,
so a present position below 1 yields a positive weight, not 0 — see the
counterexample.) -/
theorem claim_C1 (raw : RawRecord) (p : Int) :
    (raw.position = some p → 1 ≤ p → p ≤ 10 →
      (loadOne raw).position_weight = 11 - p)
    ∧ (raw.position = some p → 10 < p → (loadOne raw).position_weight = 0)
    ∧ (raw.position = none → (loadOne raw).position_weight = 0) := by
  refine ⟨fun h h1 h10 => ?_, fun h h10 => ?_, fun h => ?_⟩ <;>
    simp [loadOne, posWeight, h] <;> omega

/-- Claim C1, counterexample to the claim as stated: the loader gives the
record with position 0 — which is outside `[1,10]` — the weight 11,
not 0. -/
theorem claim_C1_cex :
    rawP0.position = some 0
    ∧ ¬((1 : Int) ≤ 0 ∧ (0 : Int) ≤ 10)
    ∧ (loadOne rawP0).position_weight = 11
    ∧ (11 : Int) ≠ 0 := by
  decide

/-- Claim C1, witness: the amended theorem applied at position 3 and at an
absent position. -/
theorem claim_C1_wit :
    (loadOne rawPos3).position_weight = 11 - 3
    ∧ (loadOne rawAllNone).position_weight = 0 :=
  ⟨(claim_C1 rawPos3 3).1 rfl (by decide) (by decide),
    (claim_C1 rawAllNone 0).2.2 rfl⟩

/-- Claim C2: every record surviving the position-range filter has a
present position inside the inclusive range. -/
theorem claim_C2 (lo hi : Int) (l : List Record) (r : Record)
    (hr : r ∈ posFilter lo hi l) :
    ∃ p, r.position = some p ∧ lo ≤ p ∧ p ≤ hi := by
  rcases List.mem_filter.mp hr with ⟨-, hpass⟩
  unfold posPass at hpass
  cases hp : r.position with
  | none => rw [hp] at hpass; simp at hpass
  | some p =>
    rw [hp] at hpass
    exact ⟨p, rfl, of_decide_eq_true hpass⟩

/-- Claim C2, witness: the filter `[1,4]` applied to a singleton list
containing a record at position 2. -/
theorem claim_C2_wit :
    recCA ∈ posFilter 1 4 [recCA]
    ∧ ∃ p, recCA.position = some p ∧ (1 : Int) ≤ p ∧ p ≤ 4 :=
  ⟨by decide, claim_C2 1 4 [recCA] recCA (by decide)⟩

/-- Claim C8: the loader substitutes `"Other"` for a missing
classification, `"Unknown"` for a missing state, and weight 0 for a
missing position, and it never drops or rejects a row (the output has one
record per input row). -/
theorem claim_C8 (raws : List RawRecord) :
    (loadData raws).length = raws.length
    ∧ ∀ raw : RawRecord,
      (raw.classification = none → (loadOne raw).classification = "Other")
      ∧ (raw.state = none → (loadOne raw).state = "Unknown")
      ∧ (raw.position = none → (loadOne raw).position_weight = 0) := by
  refine ⟨by simp [loadData], fun raw => ⟨fun h => ?_, fun h => ?_, fun h => ?_⟩⟩ <;>
    simp [loadOne, posWeight, h]

/-- Claim C8, witness: a row missing all three optional fields loads with
the three defaults. -/
theorem claim_C8_wit :
    (loadData [rawAllNone]).length = [rawAllNone].length
    ∧ (loadOne rawAllNone).classification = "Other"
    ∧ (loadOne rawAllNone).state = "Unknown"
    ∧ (loadOne rawAllNone).position_weight = 0 :=
  ⟨(claim_C8 [rawAllNone]).1,
    ((claim_C8 [rawAllNone]).2 rawAllNone).1 rfl,
    ((claim_C8 [rawAllNone]).2 rawAllNone).2.1 rfl,
    ((claim_C8 [rawAllNone]).2 rawAllNone).2.2 rfl⟩

theorem sum_map_one {α : Type} (l : List α) :
    (l.map (fun _ => (1 : ℚ))).sum = l.length := by
  induction l with
  | nil => simp
  | cons x l ih => simp [ih, add_comm]

/-- Members of `stateKeys l s` have first component `s`. -/
theorem stateKeys_fst {l : List Record} {s : String} {k : String × String}
    (hk : k ∈ stateKeys l s) : k.1 = s := by
  unfold stateKeys at hk
  have h := List.of_mem_filter hk
  exact of_decide_eq_true h

/-- Filtering on the conjunction of state and classification equals
filtering on state first and classification second. -/
theorem filter_state_pair (l : List Record) (s c : String) :
    l.filter (fun r => r.state = s ∧ r.classification = c)
      = (l.filter (fun r => r.state = s)).filter
          (fun r => r.classification = c) := by
  rw [List.filter_filter]
  apply List.filter_congr
  intro x _
  by_cases h1 : x.state = s <;> by_cases h2 : x.classification = c <;>
    simp [h1, h2]

/-- The line-46/53 per-state total over the groups equals the metric total
of the state taken directly over the records: the classification groups of
a state partition its records. -/
theorem stateKeyTotal_eq (m : Metric) (l : List Record) (s : String) :
    stateKeyTotal m l s = stateRecTotal m l s := by
  unfold stateKeyTotal stateRecTotal
  have h1 : ∀ k ∈ stateKeys l s,
      groupVal m l k.1 k.2 = groupVal m l s k.2 := by
    intro k hk
    rw [stateKeys_fst hk]
  rw [List.map_congr_left h1]
  have h2 : (stateKeys l s).map (fun p => groupVal m l s p.2)
      = ((stateKeys l s).map Prod.snd).map (fun c => groupVal m l s c) := by
    rw [List.map_map]
    rfl
  rw [h2]
  have h3 : ((stateKeys l s).map Prod.snd).map (fun c => groupVal m l s c)
      = ((stateKeys l s).map Prod.snd).map (fun c =>
          (((l.filter (fun r => r.state = s)).filter
            (fun x => x.classification = c)).map (recVal m)).sum) := by
    apply List.map_congr_left
    intro c _
    unfold groupVal
    rw [filter_state_pair]
  rw [h3]
  apply groupby_partition (fun r => r.classification) (recVal m)
  · -- the mapped key list is duplicate-free
    apply List.Nodup.map_on
    · intro x hx y hy hxy
      exact Prod.ext ((stateKeys_fst hx).trans (stateKeys_fst hy).symm) hxy
    · exact (List.nodup_dedup _).filter _
  · -- it covers every record of the state
    intro x hx
    rcases List.mem_filter.mp hx with ⟨hxl, hxs⟩
    have hxs' : x.state = s := of_decide_eq_true hxs
    have hpair : (x.state, x.classification) ∈ overviewKeys l :=
      List.mem_dedup.mpr (List.mem_map_of_mem _ hxl)
    have hpair' : (x.state, x.classification) ∈ stateKeys l s := by
      unfold stateKeys
      exact List.mem_filter.mpr ⟨hpair, decide_eq_true hxs'⟩
    exact List.mem_map.mpr ⟨(x.state, x.classification), hpair', rfl⟩

/-- The Overview rows project back onto exactly the distinct
`(state, classification)` keys. -/
theorem overview_map_key (m : Metric) (l : List Record) :
    (overview m l).map (fun row => (row.state, row.classification))
      = overviewKeys l := by
  unfold overview
  rw [List.map_map]
  have h : ((fun row : OverviewRow => (row.state, row.classification)) ∘
      (fun k : String × String =>
        ({ state := k.1
           classification := k.2
           value := groupVal m l k.1 k.2
           total := stateKeyTotal m l k.1
           share := round1 (groupVal m l k.1 k.2 /
             stateKeyTotal m l k.1 * 100) } : OverviewRow)))
      = id := by
    funext k
    rfl
  rw [h, List.map_id]

/-- The `share` column of a state: one rounded share per classification
group of that state. -/
theorem stateShares_eq (m : Metric) (l : List Record) (s : String) :
    stateShares m l s = (stateKeys l s).map
      (fun k => round1 (groupVal m l k.1 k.2 / stateKeyTotal m l k.1 * 100)) := by
  unfold stateShares overview stateKeys
  rw [List.filter_map, List.map_map]
  rfl

/-- Claim C4: the Overview aggregation has exactly one row per distinct
`(state, classification)` pair present in the filtered records; each row's
value is the group's raw count (raw metric) or summed `position_weight`
(weighted metric); each row's total is the state's metric total over the
records; and each row's share is `value / total * 100` rounded to one
decimal place. -/
theorem claim_C4 (m : Metric) (l : List Record) :
    ((overview m l).map (fun row => (row.state, row.classification))).Nodup
    ∧ (∀ s c : String,
        (s, c) ∈ (overview m l).map (fun row => (row.state, row.classification))
          ↔ ∃ r ∈ l, r.state = s ∧ r.classification = c)
    ∧ ∀ row ∈ overview m l,
        row.value = groupVal m l row.state row.classification
        ∧ row.total = stateRecTotal m l row.state
        ∧ row.share = round1 (row.value / row.total * 100)
        ∧ (m = Metric.raw →
            row.value = ((l.filter (fun r =>
              r.state = row.state ∧ r.classification = row.classification)).length : ℚ))
        ∧ (m = Metric.weighted →
            row.value = ((l.filter (fun r =>
              r.state = row.state ∧ r.classification = row.classification)).map
                (fun r => (r.position_weight : ℚ))).sum) := by
  refine ⟨?_, ?_, ?_⟩
  · rw [overview_map_key]
    exact List.nodup_dedup _
  · intro s c
    rw [overview_map_key]
    unfold overviewKeys
    rw [List.mem_dedup, List.mem_map]
    simp [Prod.ext_iff]
  · intro row hrow
    unfold overview at hrow
    rcases List.mem_map.mp hrow with ⟨k, hk, he⟩
    subst he
    refine ⟨rfl, stateKeyTotal_eq m l k.1, rfl, fun hm => ?_, fun hm => ?_⟩
    · subst hm
      exact (sum_map_one _).symm ▸ rfl
    · subst hm
      rfl

unseal Rat.mul Rat.inv Rat.add Rat.sub in
/-- Claim C4, witness: the Overview of a single CA record under the raw
metric contains the row `(CA, Real, 1, 1, 100)`, whose fields satisfy the
characterization. -/
theorem claim_C4_wit :
    cRow ∈ overview Metric.raw [recCA]
    ∧ cRow.value = groupVal Metric.raw [recCA] cRow.state cRow.classification
    ∧ cRow.total = stateRecTotal Metric.raw [recCA] cRow.state
    ∧ cRow.share = round1 (cRow.value / cRow.total * 100)
    ∧ (("CA", "Real") ∈ (overview Metric.raw [recCA]).map
          (fun row => (row.state, row.classification))
        ↔ ∃ r ∈ [recCA], r.state = "CA" ∧ r.classification = "Real") := by
  have hm : cRow ∈ overview Metric.raw [recCA] := by decide
  obtain ⟨-, hiff, hrows⟩ := claim_C4 Metric.raw [recCA]
  obtain ⟨h1, h2, h3, -, -⟩ := hrows cRow hm
  exact ⟨hm, h1, h2, h3, hiff "CA" "Real"⟩

/-- Claim C3 (amended): for every state whose line-46/53 total is positive,
the rounded shares of its classification groups sum to 100 within
`k * 0.05`, where `k` is the number of classification groups of that state
(each rounding step moves a share by at most 0.05).  The claimed fixed
tolerance 0.1 fails once a state has four classifications — see the
counterexample. -/
theorem claim_C3 (m : Metric) (l : List Record) (s : String)
    (hpos : 0 < stateKeyTotal m l s) :
    |(stateShares m l s).sum - 100| ≤ (stateShares m l s).length / 20 := by
  have hshape : stateShares m l s
      = ((stateKeys l s).map (fun k => groupVal m l k.1 k.2)).map
          (fun v => round1 (v / stateKeyTotal m l s * 100)) := by
    rw [stateShares_eq, List.map_map]
    apply List.map_congr_left
    intro k hk
    show round1 (groupVal m l k.1 k.2 / stateKeyTotal m l k.1 * 100)
      = round1 (groupVal m l k.1 k.2 / stateKeyTotal m l s * 100)
    rw [stateKeys_fst hk]
  rw [hshape, List.length_map]
  have hpos' : 0 < ((stateKeys l s).map (fun k => groupVal m l k.1 k.2)).sum :=
    hpos
  exact shares_sum_close _ hpos'

unseal Rat.mul Rat.inv Rat.add Rat.sub in
/-- Claim C3, counterexample to the claim as stated: with sixteen records
in one state split 1/1/5/9 over four classifications, the rounded
raw-count shares are 6.2, 6.2, 31.2 and 56.2, summing to 99.8 — off from
100 by 0.2, which exceeds the claimed 0.1 tolerance. -/
theorem claim_C3_cex :
    (stateShares Metric.raw cexRecs "CA").sum = 499/5
    ∧ ¬(|(499/5 : ℚ) - 100| ≤ 1/10) := by
  constructor
  · decide
  · decide

unseal Rat.mul Rat.inv Rat.add Rat.sub in
/-- Claim C3, witness: the amended bound applied to the same sixteen
records: four classification groups, so the tolerance is 4/20 = 0.2, and
|99.8 − 100| = 0.2 meets it. -/
theorem claim_C3_wit :
    0 < stateKeyTotal Metric.raw cexRecs "CA"
    ∧ |(stateShares Metric.raw cexRecs "CA").sum - 100|
        ≤ (stateShares Metric.raw cexRecs "CA").length / 20 :=
  ⟨by decide, claim_C3 Metric.raw cexRecs "CA" (by decide)⟩

theorem filter_idem {α : Type} (p : α → Bool) (l : List α) :
    (l.filter p).filter p = l.filter p := by
  rw [List.filter_filter]
  apply List.filter_congr
  intro x _
  exact Bool.and_self (p x)

theorem filter_comm {α : Type} (p q : α → Bool) (l : List α) :
    (l.filter q).filter p = (l.filter p).filter q := by
  rw [List.filter_filter, List.filter_filter]
  apply List.filter_congr
  intro x _
  exact Bool.and_comm (p x) (q x)

/-- `kwFilter` commutes past any plain filter. -/
theorem kwFilter_filter_comm (kw : String) (p : Record → Bool) (l : List Record) :
    kwFilter kw (l.filter p) = (kwFilter kw l).filter p := by
  by_cases ht : pyLower (pyStrip kw) = ""
  · simp [kwFilter, ht]
  · simp only [kwFilter, ht, if_false]
    exact filter_comm _ _ l

/-- Claim C6: the three filters are idempotent, commute pairwise, and every
application order of the three yields the same record set. -/
theorem claim_C6 (lo hi : Int) (sel : List String) (kw : String) (l : List Record) :
    posFilter lo hi (posFilter lo hi l) = posFilter lo hi l
    ∧ stateFilter sel (stateFilter sel l) = stateFilter sel l
    ∧ kwFilter kw (kwFilter kw l) = kwFilter kw l
    ∧ stateFilter sel (posFilter lo hi l) = posFilter lo hi (stateFilter sel l)
    ∧ kwFilter kw (posFilter lo hi l) = posFilter lo hi (kwFilter kw l)
    ∧ kwFilter kw (stateFilter sel l) = stateFilter sel (kwFilter kw l)
    ∧ kwFilter kw (posFilter lo hi (stateFilter sel l))
        = kwFilter kw (stateFilter sel (posFilter lo hi l))
    ∧ stateFilter sel (kwFilter kw (posFilter lo hi l))
        = kwFilter kw (stateFilter sel (posFilter lo hi l))
    ∧ stateFilter sel (posFilter lo hi (kwFilter kw l))
        = kwFilter kw (stateFilter sel (posFilter lo hi l))
    ∧ posFilter lo hi (kwFilter kw (stateFilter sel l))
        = kwFilter kw (stateFilter sel (posFilter lo hi l))
    ∧ posFilter lo hi (stateFilter sel (kwFilter kw l))
        = kwFilter kw (stateFilter sel (posFilter lo hi l)) := by
  have hkwidem : ∀ m : List Record, kwFilter kw (kwFilter kw m) = kwFilter kw m := by
    intro m
    by_cases ht : pyLower (pyStrip kw) = ""
    · simp [kwFilter, ht]
    · simp only [kwFilter, ht, if_false]
      exact filter_idem _ m
  have hps : ∀ m : List Record,
      stateFilter sel (posFilter lo hi m) = posFilter lo hi (stateFilter sel m) :=
    fun m => filter_comm _ _ m
  have hkp : ∀ m : List Record,
      kwFilter kw (posFilter lo hi m) = posFilter lo hi (kwFilter kw m) :=
    fun m => kwFilter_filter_comm kw _ m
  have hks : ∀ m : List Record,
      kwFilter kw (stateFilter sel m) = stateFilter sel (kwFilter kw m) :=
    fun m => kwFilter_filter_comm kw _ m
  refine ⟨filter_idem _ l, filter_idem _ l, hkwidem l, hps l, hkp l, hks l,
    ?_, ?_, ?_, ?_, ?_⟩
  · rw [hps l]
  · rw [hks (posFilter lo hi l)]
  · rw [hps (kwFilter kw l), ← hks l, ← hkp (stateFilter sel l), ← hps l]
  · rw [← hkp (stateFilter sel l), ← hps l]
  · rw [← hps (kwFilter kw l), ← hkp l, ← hks (posFilter lo hi l)]

/-- Claim C6, witness: the eleven equations applied to a concrete list and
concrete parameters. -/
theorem claim_C6_wit :
    posFilter 1 4 (posFilter 1 4 [recCA]) = posFilter 1 4 [recCA]
    ∧ kwFilter "casino" (posFilter 1 4 [recCA])
        = posFilter 1 4 (kwFilter "casino" [recCA]) :=
  ⟨(claim_C6 1 4 ["CA"] "casino" [recCA]).1,
    (claim_C6 1 4 ["CA"] "casino" [recCA]).2.2.2.2.1⟩

/-- Members of `brandNames` are nonempty strings. -/
theorem brandNames_ne_empty {f : Record → String} {l : List Record} {b : String}
    (hb : b ∈ brandNames f l) : b ≠ "" := by
  unfold brandNames at hb
  have h := List.of_mem_filter hb
  exact of_decide_eq_true h

/-- Claim C5: the brand breakdown counts each occurrence of each nonempty
brand name across the filtered records (repetitions inside one cell count
multiply), has exactly one entry per distinct name, and keeps the 25
entries with the largest counts, in descending count order. -/
theorem claim_C5 (f : Record → String) (l : List Record) :
    (brandCounts f l).map Prod.fst = (brandNames f l).dedup
    ∧ (∀ b c, (b, c) ∈ brandCounts f l →
        b ≠ "" ∧ c = (brandNames f l).count b)
    ∧ (brandBreakdown f l).length ≤ 25
    ∧ List.Sorted cntGE (brandBreakdown f l)
    ∧ (∀ x ∈ brandBreakdown f l, x ∈ brandCounts f l)
    ∧ (∀ x ∈ brandBreakdown f l,
        ∀ y ∈ (List.insertionSort cntGE (brandCounts f l)).drop 25, cntGE x y) := by
  have hsorted : List.Sorted cntGE (List.insertionSort cntGE (brandCounts f l)) :=
    List.sorted_insertionSort cntGE (brandCounts f l)
  refine ⟨?_, ?_, ?_, ?_, ?_, ?_⟩
  · unfold brandCounts
    rw [List.map_map]
    exact List.map_id _
  · intro b c hbc
    unfold brandCounts at hbc
    rcases List.mem_map.mp hbc with ⟨b', hb', he⟩
    have hb1 : b' = b := congrArg Prod.fst he
    have hc1 : (brandNames f l).count b' = c := congrArg Prod.snd he
    subst hb1
    exact ⟨brandNames_ne_empty (List.mem_dedup.mp hb'), hc1.symm⟩
  · exact List.length_take_le 25 _
  · exact hsorted.sublist (List.take_sublist 25 _)
  · intro x hx
    have hx' : x ∈ List.insertionSort cntGE (brandCounts f l) :=
      List.take_subset 25 _ hx
    exact (List.perm_insertionSort cntGE (brandCounts f l)).subset hx'
  · intro x hx y hy
    have hsplit := hsorted
    rw [← List.take_append_drop 25 (List.insertionSort cntGE (brandCounts f l))]
      at hsplit
    exact (List.pairwise_append.mp hsplit).2.2 x hx y hy

/-- Claim C5, witness: on the records `"A, B, A"` and `"B"`, brand `A` has
count 2 and brand `B` has count 2; an empty brand cell contributes no
entries; and the breakdown keeps at most 25 entries. -/
theorem claim_C5_wit :
    ("A", 2) ∈ brandBreakdown (fun r => r.real_brands) brandEx
    ∧ ("B", 2) ∈ brandBreakdown (fun r => r.real_brands) brandEx
    ∧ (2 : Nat) = (brandNames (fun r => r.real_brands) brandEx).count "A"
    ∧ brandNames (fun r => r.sweeps_brands) brandEx = []
    ∧ (brandBreakdown (fun r => r.real_brands) brandEx).length ≤ 25 :=
  ⟨by decide, by decide,
    ((claim_C5 (fun r => r.real_brands) brandEx).2.1 "A" 2 (by decide)).2,
    by decide,
    (claim_C5 (fun r => r.real_brands) brandEx).2.2.1⟩

/-- Claim C7: the Keyword Detail view always shows the aggregated table,
and its warning flag is raised exactly when some keyword's summed rounded
share exceeds 100.1 — the flag does not alter, remove or fail the
aggregation output. -/
theorem claim_C7 (l : List Record) :
    (keywordDetailView l).1 = kwDetail l
    ∧ ((keywordDetailView l).2 = true ↔
        ∃ k, k ∈ (kwDetail l).map KwRow.keyword
          ∧ (1001 : ℚ)/10 < kwSumShare l k) := by
  refine ⟨rfl, ?_⟩
  show kwWarn l = true ↔ _
  unfold kwWarn
  rw [List.any_eq_true]
  constructor
  · rintro ⟨k, hk, hgt⟩
    exact ⟨k, List.mem_dedup.mp hk, of_decide_eq_true hgt⟩
  · rintro ⟨k, hk, hgt⟩
    exact ⟨k, List.mem_dedup.mpr hk, decide_eq_true hgt⟩

/-- Records surviving the position filter with bounds inside `[1,10]` that
came from the loader carry weight at least 1. -/
theorem posFilter_weight_ge_one {raws : List RawRecord} {lo hi : Int}
    (_h1 : 1 ≤ lo) (h2 : hi ≤ 10) :
    ∀ r ∈ posFilter lo hi (loadData raws), 1 ≤ r.position_weight := by
  intro r hr
  rcases List.mem_filter.mp hr with ⟨hrl, hpass⟩
  rcases List.mem_map.mp hrl with ⟨raw, -, he⟩
  subst he
  unfold posPass at hpass
  unfold loadOne at hpass ⊢
  cases hp : raw.position with
  | none => rw [hp] at hpass; simp at hpass
  | some p =>
    rw [hp] at hpass
    have hb := of_decide_eq_true hpass
    simp [posWeight, hp]
    omega

/-- A list of rationals that are all at least 1 and contains a given
element has a positive sum. -/
theorem sum_pos_of_one_le {xs : List ℚ} (hall : ∀ x ∈ xs, 1 ≤ x)
    {x : ℚ} (hx : x ∈ xs) : 0 < xs.sum := by
  have hnn : ∀ y ∈ xs, 0 ≤ y := fun y hy => le_trans (by norm_num) (hall y hy)
  have h1 : x ≤ xs.sum := List.single_le_sum hnn x hx
  have h2 : 1 ≤ x := hall x hx
  linarith

/-- In the weighted Overview of a record set whose weights are all at
least 1, every row's total is positive. -/
theorem overview_total_pos {l : List Record}
    (hw : ∀ r ∈ l, 1 ≤ r.position_weight) :
    ∀ row ∈ overview Metric.weighted l, 0 < row.total := by
  intro row hrow
  unfold overview at hrow
  rcases List.mem_map.mp hrow with ⟨k, hk, he⟩
  subst he
  show 0 < stateKeyTotal Metric.weighted l k.1
  rw [stateKeyTotal_eq]
  unfold stateRecTotal
  unfold overviewKeys at hk
  rcases List.mem_map.mp (List.mem_dedup.mp hk) with ⟨r0, hr0, he0⟩
  have hs0 : r0.state = k.1 := by rw [← he0]
  have hr0f : r0 ∈ l.filter (fun r => r.state = k.1) :=
    List.mem_filter.mpr ⟨hr0, decide_eq_true hs0⟩
  have hall : ∀ x ∈ (l.filter (fun r => r.state = k.1)).map
      (recVal Metric.weighted), 1 ≤ x := by
    intro x hx
    rcases List.mem_map.mp hx with ⟨r, hr, he⟩
    subst he
    have : 1 ≤ r.position_weight := hw r (List.mem_of_mem_filter hr)
    show (1 : ℚ) ≤ (r.position_weight : ℚ)
    exact_mod_cast this
  exact sum_pos_of_one_le hall
    (List.mem_map_of_mem (recVal Metric.weighted) hr0f)

/-- In the Keyword Detail aggregation of a record set whose weights are
all at least 1, every row's total is positive. -/
theorem kwDetail_total_pos {l : List Record}
    (hw : ∀ r ∈ l, 1 ≤ r.position_weight) :
    ∀ row ∈ kwDetail l, 0 < row.total := by
  intro row hrow
  unfold kwDetail at hrow
  rcases List.mem_map.mp hrow with ⟨k, hk, he⟩
  subst he
  show 0 < kwKeyTotal l k.1
  unfold kwKeys at hk
  rcases List.mem_map.mp (List.mem_dedup.mp hk) with ⟨r0, hr0, he0⟩
  have hkw0 : r0.keyword = some k.1 := by
    have hsome : r0.keyword.isSome = true := of_decide_eq_true (by
      have h := List.of_mem_filter (show r0 ∈ l.filter
        (fun r => r.keyword.isSome) from hr0)
      cases hks : r0.keyword.isSome
      · rw [hks] at h; cases h
      · rfl)
    cases hkc : r0.keyword with
    | none => rw [hkc] at hsome; cases hsome
    | some kw0 =>
      have : kw0 = k.1 := by
        have := congrArg Prod.fst he0
        simpa [hkc] using this
      rw [this]
  have hc0 : r0.classification = k.2 := by
    have := congrArg Prod.snd he0
    simpa using this
  -- the row's own group weight is at least 1
  have hown : 1 ≤ kwGroupW l k.1 k.2 := by
    unfold kwGroupW
    have hr0g : r0 ∈ (kwRecords l).filter
        (fun r => r.keyword = some k.1 ∧ r.classification = k.2) :=
      List.mem_filter.mpr ⟨hr0, decide_eq_true ⟨hkw0, hc0⟩⟩
    have hall : ∀ x ∈ ((kwRecords l).filter
        (fun r => r.keyword = some k.1 ∧ r.classification = k.2)).map
          (fun r => (r.position_weight : ℚ)), 1 ≤ x := by
      intro x hx
      rcases List.mem_map.mp hx with ⟨r, hr, he⟩
      subst he
      have hrm : r ∈ l :=
        List.mem_of_mem_filter (List.mem_of_mem_filter hr)
      have : 1 ≤ r.position_weight := hw r hrm
      show (1 : ℚ) ≤ (r.position_weight : ℚ)
      exact_mod_cast this
    have hx0 : (r0.position_weight : ℚ) ≤ _ :=
      List.single_le_sum
        (fun y hy => le_trans (by norm_num) (hall y hy)) _
        (List.mem_map_of_mem (fun r => (r.position_weight : ℚ)) hr0g)
    have h1 : (1 : ℚ) ≤ (r0.position_weight : ℚ) := by
      exact_mod_cast hw r0 (List.mem_of_mem_filter hr0)
    linarith
  -- group weights are nonnegative, and the row's group is among them
  have hgrps : ∀ x ∈ ((kwKeys l).filter (fun p => p.1 = k.1)).map
      (fun p => kwGroupW l p.1 p.2), 0 ≤ x := by
    intro x hx
    rcases List.mem_map.mp hx with ⟨p, -, he⟩
    subst he
    unfold kwGroupW
    apply List.sum_nonneg
    intro y hy
    rcases List.mem_map.mp hy with ⟨r, hr, he⟩
    subst he
    have hrm : r ∈ l :=
      List.mem_of_mem_filter (List.mem_of_mem_filter hr)
    have : 1 ≤ r.position_weight := hw r hrm
    show (0 : ℚ) ≤ (r.position_weight : ℚ)
    exact_mod_cast le_trans (by omega) this
  have hkmem : k ∈ (kwKeys l).filter (fun p => p.1 = k.1) := by
    refine List.mem_filter.mpr ⟨?_, decide_eq_true rfl⟩
    unfold kwKeys
    exact hk
  have hle : kwGroupW l k.1 k.2 ≤ kwKeyTotal l k.1 := by
    unfold kwKeyTotal
    have := List.single_le_sum hgrps (kwGroupW l k.1 k.2)
      (List.mem_map.mpr ⟨k, hkmem, rfl⟩)
    exact this
  linarith

/-- Claim C9: with position bounds inside `[1,10]`, every record surviving
the filter chain has weight at least 1, and every total that the weighted
Overview and the Keyword Detail divide by is strictly positive. -/
theorem claim_C9 (raws : List RawRecord) (lo hi : Int)
    (h1 : 1 ≤ lo) (h2 : hi ≤ 10) (sel : List String) (kw : String) :
    (∀ r ∈ kwFilter kw (stateFilter sel (posFilter lo hi (loadData raws))),
      1 ≤ r.position_weight)
    ∧ (∀ row ∈ overview Metric.weighted
        (kwFilter kw (stateFilter sel (posFilter lo hi (loadData raws)))),
        0 < row.total)
    ∧ (∀ row ∈ kwDetail
        (kwFilter kw (stateFilter sel (posFilter lo hi (loadData raws)))),
        0 < row.total) := by
  have hsub : ∀ r ∈ kwFilter kw (stateFilter sel (posFilter lo hi (loadData raws))),
      r ∈ posFilter lo hi (loadData raws) := by
    intro r hr
    have hr1 : r ∈ stateFilter sel (posFilter lo hi (loadData raws)) := by
      by_cases ht : pyLower (pyStrip kw) = ""
      · simpa [kwFilter, ht] using hr
      · simp only [kwFilter, ht, if_false] at hr
        exact List.mem_of_mem_filter hr
    exact List.mem_of_mem_filter hr1
  have hw : ∀ r ∈ kwFilter kw (stateFilter sel (posFilter lo hi (loadData raws))),
      1 ≤ r.position_weight :=
    fun r hr => posFilter_weight_ge_one h1 h2 r (hsub r hr)
  exact ⟨hw, overview_total_pos hw, kwDetail_total_pos hw⟩

unseal Rat.mul Rat.inv Rat.add Rat.sub in
/-- Claim C9, witness: one NJ record at position 3 run through the filter
chain `[1,4]` / `{NJ}` / empty keyword: its weight is 8 ≥ 1, and the
weighted Overview row and Keyword Detail row both have total 8 > 0. -/
theorem claim_C9_wit :
    (1 : Int) ≤ 1 ∧ (4 : Int) ≤ 10
    ∧ 1 ≤ (loadOne rawPos3).position_weight
    ∧ njRow ∈ overview Metric.weighted fl9 ∧ 0 < njRow.total
    ∧ kwNjRow ∈ kwDetail fl9 ∧ 0 < kwNjRow.total := by
  have h := claim_C9 [rawPos3] 1 4 (by decide) (by decide) ["NJ"] ""
  exact ⟨by decide, by decide,
    h.1 (loadOne rawPos3) (by decide),
    by decide, h.2.1 njRow (by decide),
    by decide, h.2.2 kwNjRow (by decide)⟩

/-- On an all-literal pattern, the matcher agrees with literal
front-matching. -/
theorem reMatch_lit : ∀ (n cs : List Char),
    reMatch (n.map PatTok.lit) cs = leadEq n cs
  | [], _ => rfl
  | _ :: _, [] => rfl
  | a :: as, b :: bs => by
    simp [reMatch, leadEq, tokMatch, reMatch_lit as bs]

/-- On an all-literal pattern, the regex search agrees with plain substring
containment. -/
theorem reSearch_lit : ∀ (n cs : List Char),
    reSearch (n.map PatTok.lit) cs = listSub n cs
  | n, [] => by simp [reSearch, listSub, reMatch_lit]
  | n, c :: cs => by simp [reSearch, listSub, reMatch_lit, reSearch_lit n cs]

/-- A pattern without metacharacters parses to all-literal tokens. -/
theorem parsePat_lit (t : String) (hmeta : ∀ c ∈ t.toList, isMeta c = false) :
    parsePat t = t.toList.map PatTok.lit := by
  unfold parsePat
  apply List.map_congr_left
  intro c hc
  have hm := hmeta c hc
  have hdot : ¬(c = '.') := by
    intro he
    rw [he] at hm
    exact absurd hm (by decide)
  simp [hdot]

/-- Claim C10 (amended): the supplied string is stripped and lowercased;
if the result is empty no keyword filtering happens; otherwise a record
passes exactly when its keyword is present and its lowercased keyword
matches the pattern as a regular-expression search (`str.contains` has
`regex=True`), which coincides with substring containment whenever the
pattern has no regex metacharacters; records with a missing keyword are
excluded rather than raising. -/
theorem claim_C10 (sel : String) (l : List Record) :
    (pyLower (pyStrip sel) = "" → kwFilter sel l = l)
    ∧ (pyLower (pyStrip sel) ≠ "" →
        ∀ r, r ∈ kwFilter sel l ↔
          r ∈ l ∧ ∃ k, r.keyword = some k
            ∧ reSearch (parsePat (pyLower (pyStrip sel)))
                (pyLower k).toList = true)
    ∧ ((∀ c ∈ (pyLower (pyStrip sel)).toList, isMeta c = false) →
        ∀ cs : List Char,
          reSearch (parsePat (pyLower (pyStrip sel))) cs
            = listSub (pyLower (pyStrip sel)).toList cs) := by
  refine ⟨fun h => by simp [kwFilter, h], fun h r => ?_, fun hmeta cs => ?_⟩
  · simp only [kwFilter, h, if_false]
    rw [List.mem_filter]
    apply and_congr_right
    intro _
    cases hk : r.keyword with
    | none => simp [kwPass, hk]
    | some k0 => simp [kwPass, hk]
  · rw [parsePat_lit _ hmeta, reSearch_lit]

/-- Claim C10, counterexample to the claim as stated: with the pattern
`"."` (nonempty after normalization) the filter keeps a record whose
keyword is `"x"`, although `"x"` does not contain the substring `"."` —
`str.contains` treats the argument as a regular expression, not a literal
substring. -/
theorem claim_C10_cex :
    pyLower (pyStrip ".") ≠ ""
    ∧ kwFilter "." [kwCexRec] = [kwCexRec]
    ∧ kwCexRec.keyword = some "x"
    ∧ listSub (pyLower (pyStrip ".")).toList (pyLower "x").toList = false := by
  decide

/-- Claim C10, witness: the metacharacter-free pattern `"casino"` keeps the
record whose keyword is `"casino"`, and on such patterns the search is
plain substring containment. -/
theorem claim_C10_wit :
    recCA ∈ kwFilter "casino" [recCA]
    ∧ reSearch (parsePat (pyLower (pyStrip "casino"))) "casino".toList
        = listSub (pyLower (pyStrip "casino")).toList "casino".toList := by
  have h := claim_C10 "casino" [recCA]
  refine ⟨(h.2.1 (by decide) recCA).mpr ⟨by decide, "casino", rfl, by decide⟩,
    h.2.2 (by decide) "casino".toList⟩

end BrandViz
